import Mathlib

/-!
Verification of the streaming-subtitle core of `realtime_subtitles`.

This file shallowly embeds, straight from the Python sources, the three
components the specification's claims are about:

* `TranslationStateManager` (`livecaptions/manager.py`): sentence
  segmentation, fuzzy alignment against the committed prefix (a faithful
  port of `difflib.SequenceMatcher.ratio`), draft capping, commit
  thresholds and translator error handling.  Strings are `List Char`;
  the translator is a function `List Char → Except Unit (List Char)`
  where `Except.error` stands for a raised Python exception; every
  operation additionally returns the number of translator invocations.
* the single-slot conflation register of `StreamingPipeline`
  (`vosk_pipeline.py`): the mutex-protected write (producer) and
  take (consumer) are each atomic in the Python code because both hold
  `_text_lock` for the whole access, so the concurrency is modelled as
  an arbitrary interleaving of atomic `write`/`take` events.
* `StreamingAudioBuffer.add_audio` (`audio/buffer.py`): chunks carry
  their sample payload, their VAD classification and their arrival time;
  `time.time()` is modelled by the per-chunk timestamp and durations are
  exact rationals.

Float arithmetic of the source (duration thresholds, the 0.65 fuzzy
ratio) is modelled with exact rationals; no claim exercises a value
close enough to a binary-rounding boundary for the difference to
matter.  Python's `str.strip`/`str.lower` are modelled on the ASCII
range, which covers every string this program compares.
-/

set_option maxRecDepth 20000

namespace RS

/-- Strings are modelled as their character lists. -/
abbrev Str := List Char

/-- Coerce a Lean string literal into the model representation. -/
def str (s : String) : Str := s.data

/-- Python `sep.join(parts)`. -/
def joinSep (sep : Str) : List Str → Str
  | [] => []
  | [x] => x
  | x :: xs => x ++ sep ++ joinSep sep xs

/-- The sentence delimiter set `SENTENCE_DELIMITERS` of
`TranslationStateManager` (`[.。？！?!\n，,、]`). -/
def isDelim (c : Char) : Bool :=
  c ∈ ['.', '。', '？', '！', '?', '!', '\n', '，', ',', '、']

/-- Python whitespace recognised by `str.strip` (ASCII range). -/
def isSpace (c : Char) : Bool :=
  c ∈ [' ', '\t', '\n', '\x0d', '\x0b', '\x0c']

/-- `re.split(SENTENCE_DELIMITERS, text)`: split at every delimiter
occurrence, keeping empty parts. -/
def splitD : Str → List Str
  | [] => [[]]
  | c :: rest =>
    if isDelim c then [] :: splitD rest
    else
      match splitD rest with
      | g :: gs => (c :: g) :: gs
      | [] => [[c]]

/-- Python `s.strip()`. -/
def strip (s : Str) : Str :=
  ((s.dropWhile isSpace).reverse.dropWhile isSpace).reverse

/-- The `for i in range(0, len(part), MAX_SENTENCE_LENGTH)` loop of
`_segment_sentences`, structurally recursive on a fuel that is always
sufficient (each step removes `min 80 (length p) ≥ 1` characters). -/
def chunksGo : Nat → Str → List Str
  | 0, _ => []
  | _, [] => []
  | fuel + 1, c :: rest => ((c :: rest).take 80) :: chunksGo fuel ((c :: rest).drop 80)

/-- Hard 80-character chunking of an over-long sentence. -/
def chunks80 (p : Str) : List Str := chunksGo p.length p

/-- `TranslationStateManager._segment_sentences`: split on delimiters,
strip each part, drop empties, hard-split parts longer than
`MAX_SENTENCE_LENGTH = 80` into stripped nonempty 80-char chunks. -/
def segmentSentences (x : Str) : List Str :=
  ((splitD x).map (fun part =>
    let p := strip part
    if p = [] then []
    else if 80 < p.length then ((chunks80 p).map strip).filter (fun c => c ≠ [])
    else [p])).flatten

/-! ### difflib.SequenceMatcher (no junk, no autojunk)

`_similarity` feeds `SequenceMatcher` only sentences of at most 80
characters (segmentation hard-splits above 80), so CPython's autojunk
heuristic (active only for sequences of length ≥ 200) never fires and
the junk-extension loops of `find_longest_match` are no-ops.  The port
below therefore omits junk handling. -/

/-- `b2j`: the ascending list of positions of `c` in `b`. -/
def b2j (b : Str) (c : Char) : List Nat :=
  (List.range b.length).filter (fun j => b.getD j ' ' = c)

/-- `dict.get(key, 0)` on an association list. -/
def lookupD (l : List (Nat × Nat)) (key : Nat) : Nat :=
  match l.find? (fun p => p.1 = key) with
  | some p => p.2
  | none => 0

/-- Inner loop of `find_longest_match`: walk the match positions `js`
of `a[i]` in `b`, extending runs recorded in `j2len` (the previous
row), building the current row `acc` and updating the best match.
`i + 1 - k` / `j + 1 - k` are Python's `i-k+1` / `j-k+1` (the run
length `k` never exceeds `i + 1` or `j + 1`, so the `Nat` subtraction
is exact). -/
def innerLoop (j2len : List (Nat × Nat)) (i : Nat) :
    List Nat → List (Nat × Nat) → Nat × Nat × Nat → List (Nat × Nat) × (Nat × Nat × Nat)
  | [], acc, best => (acc, best)
  | j :: js, acc, best =>
    let k := (if j = 0 then 0 else lookupD j2len (j - 1)) + 1
    let best' := if best.2.2 < k then (i + 1 - k, j + 1 - k, k) else best
    innerLoop j2len i js ((j, k) :: acc) best'

/-- Outer loop of `find_longest_match` over the `a`-indices; the
`filter`/`takeWhile` pair is Python's `continue`-below-`blo` /
`break`-at-`bhi` on the ascending `b2j` list. -/
def outerLoop (a b : Str) (blo bhi : Nat) :
    List Nat → List (Nat × Nat) → Nat × Nat × Nat → Nat × Nat × Nat
  | [], _, best => best
  | i :: rest, j2len, best =>
    let js := ((b2j b (a.getD i ' ')).filter (fun j => blo ≤ j)).takeWhile (fun j => j < bhi)
    let r := innerLoop j2len i js [] best
    outerLoop a b blo bhi rest r.1 r.2

/-- `SequenceMatcher.find_longest_match(alo, ahi, blo, bhi)`,
returning `(besti, bestj, bestsize)`. -/
def findLongestMatch (a b : Str) (alo ahi blo bhi : Nat) : Nat × Nat × Nat :=
  outerLoop a b blo bhi (List.range' alo (ahi - alo)) [] (alo, blo, 0)

/-- Row invariant of `find_longest_match`: every entry `(j, v)` of
`j2len` records a common run of length `v` ending at `b`-position `j`
that fits inside the window: `blo ≤ j < bhi`, `v` reaches back no
further than `blo` (`v + blo ≤ j + 1`) and no further than the first
processed `a`-index (`v + alo ≤ bound`, where `bound` is the next
outer index). -/
def J2Inv (alo blo bhi bound : Nat) (l : List (Nat × Nat)) : Prop :=
  ∀ p ∈ l, blo ≤ p.1 ∧ p.1 < bhi ∧ p.2 + blo ≤ p.1 + 1 ∧ p.2 + alo ≤ bound

/-- A nontrivial best match lies inside the requested window. -/
def BestInv (alo ahi blo bhi : Nat) (t : Nat × Nat × Nat) : Prop :=
  0 < t.2.2 → alo ≤ t.1 ∧ t.1 + t.2.2 ≤ ahi ∧ blo ≤ t.2.1 ∧ t.2.1 + t.2.2 ≤ bhi

/-- Sum of the sizes of `get_matching_blocks`, via the same recursive
range splitting as CPython's queue (the order blocks are found in does
not affect the sum).  Structural recursion on a fuel argument;
`matchSumGo_fuel_irrel` below shows any fuel above the range measure
gives the same value, so the top-level fuel `a.length + b.length + 1`
used by `matchSum` is always enough. -/
def matchSumGo (a b : Str) : Nat → Nat → Nat → Nat → Nat → Nat
  | 0, _, _, _, _ => 0
  | fuel + 1, alo, ahi, blo, bhi =>
    let r := findLongestMatch a b alo ahi blo bhi
    if 0 < r.2.2 then
      r.2.2 + matchSumGo a b fuel alo r.1 blo r.2.1
        + matchSumGo a b fuel (r.1 + r.2.2) ahi (r.2.1 + r.2.2) bhi
    else 0

/-- Total size of all matching blocks of `a` and `b`. -/
def matchSum (a b : Str) : Nat :=
  matchSumGo a b (a.length + b.length + 1) 0 a.length 0 b.length

/-- `SequenceMatcher.ratio() = 2.0 * matches / (la + lb)` (and `1.0`
when both sequences are empty), as an exact rational. -/
def smRatio (a b : Str) : Rat :=
  if a.length + b.length = 0 then 1
  else (2 * (matchSum a b : Rat)) / ((a.length : Rat) + (b.length : Rat))

/-- `TranslationStateManager._similarity`: `0.0` when either string is
falsy, else the `SequenceMatcher` ratio of the lowercased strings. -/
def similarity (a b : Str) : Rat :=
  if a = [] ∨ b = [] then 0
  else smRatio (a.map Char.toLower) (b.map Char.toLower)

/-! ### TranslationStateManager -/

/-- A translator callable; `Except.error ()` models a raised
exception, `Except.ok` a returned string (Python `None` returns are
subsumed by the empty string via the source's `or ""`). -/
abbrev Tr := Str → Except Unit Str

/-- The output value built by `_build_state`. -/
structure TranslationState where
  committed_text : Str
  draft_text : Str
deriving DecidableEq

/-- The mutable fields of `TranslationStateManager`. -/
structure TSMState where
  committed_sources : List Str
  committed_paragraphs : List Str
  draft_sources : List Str
  draft_translation : Str
  last_processed_text : Str
deriving DecidableEq

/-- The state of a freshly constructed manager (also the state
`reset()` produces). -/
def initTSM : TSMState :=
  { committed_sources := [], committed_paragraphs := [], draft_sources := []
    draft_translation := [], last_processed_text := [] }

/-- `_build_state`: committed paragraphs joined by newline, plus the
draft translation. -/
def buildState (s : TSMState) : TranslationState :=
  { committed_text := joinSep ['\n'] s.committed_paragraphs
    draft_text := s.draft_translation }

/-- `_retranslate_committed`: clear the paragraphs when there is no
translator or nothing committed; otherwise retranslate the joined
committed sources as one paragraph.  On a raised exception the state is
left untouched (the `except` branch only logs).  The second component
counts translator invocations. -/
def retranslateCommitted (tr? : Option Tr) (s : TSMState) : TSMState × Nat :=
  match tr? with
  | none => ({ s with committed_paragraphs := [] }, 0)
  | some tr =>
    if s.committed_sources = [] then ({ s with committed_paragraphs := [] }, 0)
    else
      match tr (joinSep [' '] s.committed_sources) with
      | .ok t => ({ s with committed_paragraphs := if t = [] then [] else [t] }, 1)
      | .error _ => (s, 1)

/-- The `for i, committed_src in enumerate(self._committed_sources)`
loop of `_find_committed_end`: `i` is the current index, `mc` the
number of matched sentences (they coincide while the loop runs; both
are kept to mirror the source).  Returns the final `matched_count`,
the updated state and the translator-invocation count. -/
def fceLoop (tr? : Option Tr) (src : List Str) :
    List Str → Nat → Nat → TSMState → Nat × TSMState × Nat
  | [], _, mc, s => (mc, s, 0)
  | c :: rest, i, mc, s =>
    if src.length ≤ mc then
      -- source shorter than committed: trim to the matched prefix
      let r := retranslateCommitted tr? { s with committed_sources := s.committed_sources.take mc }
      (mc, r.1, r.2)
    else if (65 : Rat) / 100 ≤ similarity c (src.getD mc []) then
      fceLoop tr? src rest (i + 1) (mc + 1) s
    else
      -- mismatch: committed content diverged, trim to the matched prefix
      let r := retranslateCommitted tr? { s with committed_sources := s.committed_sources.take i }
      (mc, r.1, r.2)

/-- `_find_committed_end`. -/
def findCommittedEnd (tr? : Option Tr) (src : List Str) (s : TSMState) : Nat × TSMState × Nat :=
  if s.committed_sources = [] then (0, s, 0)
  else fceLoop tr? src s.committed_sources 0 0 s

/-- The draft-size cap of `process_text` (lines 123-131): when the
draft exceeds `MAX_DRAFT_SENTENCES = 8`, force-commit the oldest
excess into the committed sources (no translator call, no paragraph). -/
def capDraft (s : TSMState) (d : List Str) : TSMState × List Str :=
  if 8 < d.length then
    ({ s with committed_sources := s.committed_sources ++ d.take (d.length - 8) },
     d.drop (d.length - 8))
  else (s, d)

/-- The draft-overwrite translation of `process_text` (lines 140-148):
translate the joined draft; a raised exception empties the draft
translation; without a translator nothing happens. -/
def translateDraft (tr? : Option Tr) (s : TSMState) : TSMState × Nat :=
  match tr? with
  | none => (s, 0)
  | some tr =>
    match tr (joinSep [' '] s.draft_sources) with
    | .ok t => ({ s with draft_translation := t }, 1)
    | .error _ => ({ s with draft_translation := [] }, 1)

/-- The batch translation of `_check_commit_threshold` (lines 258-265):
translate the newly committed batch and append it as a new paragraph
(nothing is appended for an empty/`None` result or a raised
exception). -/
def commitBatchTranslate (tr? : Option Tr) (to_commit : List Str) (s1 : TSMState) :
    TSMState × Nat :=
  match tr? with
  | none => (s1, 0)
  | some tr =>
    match tr (joinSep [' '] to_commit) with
    | .ok t =>
      (if t = [] then s1
       else { s1 with committed_paragraphs := s1.committed_paragraphs ++ [t] }, 1)
    | .error _ => (s1, 1)

/-- The tail of `_check_commit_threshold` (lines 270-278): re-translate
the remaining draft; without a translator or a remaining draft the
draft translation is emptied; a raised exception leaves it unchanged. -/
def retranslateRemaining (tr? : Option Tr) (s3 : TSMState) : TSMState × Nat :=
  match tr? with
  | none => ({ s3 with draft_translation := [] }, 0)
  | some tr =>
    if s3.draft_sources = [] then ({ s3 with draft_translation := [] }, 0)
    else
      match tr (joinSep [' '] s3.draft_sources) with
      | .ok t => ({ s3 with draft_translation := t }, 1)
      | .error _ => (s3, 1)

/-- `_check_commit_threshold`: when the draft holds at least
`DRAFT_COMMIT_THRESHOLD = 6` sentences or `DRAFT_CHAR_THRESHOLD = 150`
characters, commit `commit_target` sentences (`COMMIT_COUNT = 4`, or
`max 1 (total - 1)` when the draft is shorter than 4), translate the
batch as a new paragraph, then slice `COMMIT_COUNT = 4` entries off the
draft (the source slices by `COMMIT_COUNT`, not by `commit_target`)
and retranslate what remains. -/
def checkCommitThreshold (tr? : Option Tr) (s : TSMState) : TSMState × Nat :=
  let total := s.draft_sources.length
  let chars := (s.draft_sources.map List.length).sum
  if 6 ≤ total ∨ 150 ≤ chars then
    let commit_target := if total < 4 then max 1 (total - 1) else 4
    let to_commit := s.draft_sources.take commit_target
    let r1 := commitBatchTranslate tr? to_commit
      { s with committed_sources := s.committed_sources ++ to_commit }
    let r2 := retranslateRemaining tr?
      { r1.1 with draft_sources := r1.1.draft_sources.drop 4 }
    (r2.1, r1.2 + r2.2)
  else (s, 0)

/-- `process_text` lines 115-153: align the sentence list against the
committed prefix, cap the draft, overwrite-translate the whole draft
and run the commit check. -/
def processSegmented (tr? : Option Tr) (s : TSMState) (sents : List Str) : TSMState × Nat :=
  let fce := findCommittedEnd tr? sents s
  let cap := capDraft fce.2.1 (sents.drop fce.1)
  let s3 := { cap.1 with draft_sources := cap.2 }
  if cap.2 = [] then ({ s3 with draft_translation := [] }, fce.2.2)
  else
    let td := translateDraft tr? s3
    let cc := checkCommitThreshold tr? td.1
    (cc.1, fce.2.2 + td.2 + cc.2)

/-- The body of `process_text` past the duplicate check: record the
input, bail out on effectively-empty input, segment, apply the
cold-start window (`[-6:]` when nothing is committed yet and more than
`DRAFT_COMMIT_THRESHOLD = 6` sentences arrive), then hand the sentence
list to `processSegmented`. -/
def processTextCore (tr? : Option Tr) (s0 : TSMState) (x : Str) : TSMState × Nat :=
  let s := { s0 with last_processed_text := x }
  if x = [] ∨ strip x = [] then (s, 0)
  else
    let sents0 := segmentSentences x
    if sents0 = [] then (s, 0)
    else
      let sents := if s.committed_sources = [] ∧ 6 < sents0.length then
          sents0.drop (sents0.length - 6)
        else sents0
      processSegmented tr? s sents

/-- `process_text`: every exit of the Python function returns
`self._build_state()` after all its mutations, so the function is its
duplicate check around `processTextCore` followed by `_build_state`.
Returns the state snapshot, the new manager state and the number of
translator invocations. -/
def processText (tr? : Option Tr) (s : TSMState) (x : Str) :
    TranslationState × TSMState × Nat :=
  if x = s.last_processed_text then (buildState s, s, 0)
  else
    let r := processTextCore tr? s x
    (buildState r.1, r.1, r.2)

/-- One externally visible manager operation. -/
inductive TSMOp where
  | proc (x : Str)
  | reset

/-- Run a sequence of operations from a fresh manager (`reset()`
restores exactly the fresh state). -/
def runOps (tr? : Option Tr) (ops : List TSMOp) : TSMState :=
  ops.foldl (fun s op =>
    match op with
    | .proc x => (processText tr? s x).2.1
    | .reset => initTSM) initTSM

/-! ### StreamingPipeline's single-slot conflation register

Producer (`_process_loop`, lines 171-173) and consumer
(`_translation_loop`, lines 204-206) access `_latest_raw_text` and
`_new_text_event` only while holding `_text_lock`, so each access is
atomic and any concurrent execution is an interleaving of the two
atomic operations below. -/

/-- The shared state: `_latest_raw_text` plus the
`threading.Event` flag. -/
structure TextSlot where
  latest_raw_text : Str
  new_text_event : Bool
deriving DecidableEq

/-- Producer critical section: `self._latest_raw_text = raw_text;
self._new_text_event.set()`. -/
def slotWrite (_sl : TextSlot) (v : Str) : TextSlot :=
  { latest_raw_text := v, new_text_event := true }

/-- Consumer critical section: `raw_text = self._latest_raw_text;
self._new_text_event.clear()`. -/
def slotTake (sl : TextSlot) : Str × TextSlot :=
  (sl.latest_raw_text, { sl with new_text_event := false })

/-- An interleaving event: a producer write of a new hypothesis or a
consumer wake-up that takes the slot. -/
inductive SlotEv where
  | write (v : Str)
  | take

/-- Run an interleaving, collecting the values the consumer takes, in
order. -/
def runSlot (sl : TextSlot) : List SlotEv → TextSlot × List Str
  | [] => (sl, [])
  | .write v :: evs =>
    runSlot (slotWrite sl v) evs
  | .take :: evs =>
    let t := slotTake sl
    let r := runSlot t.2 evs
    (r.1, t.1 :: r.2)

/-- Specification of conflation: at each consumer wake-up the value
observed is the most recent producer write (initially the slot
content). -/
def newestAtTake (cur : Str) : List SlotEv → List Str
  | [] => []
  | .write v :: evs => newestAtTake v evs
  | .take :: evs => cur :: newestAtTake cur evs

/-! ### StreamingAudioBuffer -/

/-- Audio samples are opaque payload values; no claim computes with
them. -/
abbrev Sample := Int

/-- One `add_audio` call's inputs: the chunk, the VAD classification
(`is_speech`; constantly `true` when VAD is disabled) and the
`time.time()` timestamp of the call. -/
structure Chunk where
  samples : List Sample
  is_speech : Bool
  time : Rat
deriving DecidableEq

/-- Constructor parameters of `StreamingAudioBuffer` used by
`add_audio` (plus `min_segment_duration`, which is stored but not
read by it). -/
structure BufCfg where
  min_segment_duration : Rat
  max_segment_duration : Rat
  speech_pad_ms : Nat
deriving DecidableEq

/-- Mutable fields of `StreamingAudioBuffer`. -/
structure BufSt where
  buffer : List (List Sample)
  buffer_samples : Nat
  speech_started : Bool
  speech_start_time : Option Rat
  silence_start_time : Option Rat
  pre_buffer : List Sample
deriving DecidableEq

/-- Freshly constructed buffer state (also what `reset()` leaves). -/
def initBufSt : BufSt :=
  { buffer := [], buffer_samples := 0, speech_started := false
    speech_start_time := none, silence_start_time := none, pre_buffer := [] }

/-- `deque(maxlen=int(SAMPLE_RATE * speech_pad_ms / 1000))`. -/
def preMaxLen (cfg : BufCfg) : Nat := 16000 * cfg.speech_pad_ms / 1000

/-- `for sample in audio: self._pre_buffer.append(sample)` on a
bounded deque: keep the newest `preMaxLen` samples. -/
def pushPre (cfg : BufCfg) (pre chunk : List Sample) : List Sample :=
  let l := pre ++ chunk
  l.drop (l.length - preMaxLen cfg)

/-- `_flush_buffer_unlocked` result: `None` iff the buffer list is
empty, else the concatenation. -/
def flushEmit (st : BufSt) : Option (List Sample) :=
  if st.buffer = [] then none else some st.buffer.flatten

/-- The max-duration check at the end of `add_audio` (lines 188-203):
on `buffer_samples / SAMPLE_RATE ≥ max_segment_duration` the speech
flags are cleared, the buffer flushed and its contents emitted. -/
def maxCheck (cfg : BufCfg) (st : BufSt) : BufSt × Option (List Sample) :=
  if cfg.max_segment_duration ≤ (st.buffer_samples : Rat) / 16000 then
    ({ st with speech_started := false, speech_start_time := none
               buffer := [], buffer_samples := 0 },
     flushEmit st)
  else (st, none)

/-- `add_audio` for one chunk; the second component is the audio
handed to `on_segment_ready` (the thread spawn), if any. -/
def addAudio (cfg : BufCfg) (st : BufSt) (c : Chunk) : BufSt × Option (List Sample) :=
  if c.is_speech then
    let st1 : BufSt :=
      { st with speech_started := true
                speech_start_time := if st.speech_started then st.speech_start_time else some c.time
                silence_start_time := none
                buffer := st.buffer ++ [c.samples]
                buffer_samples := st.buffer_samples + c.samples.length }
    maxCheck cfg st1
  else if st.speech_started then
    -- trailing silence: accumulate, and emit once it exceeds speech_pad_ms
    let silStart := st.silence_start_time.getD c.time
    let st1 : BufSt :=
      { st with buffer := st.buffer ++ [c.samples]
                buffer_samples := st.buffer_samples + c.samples.length
                silence_start_time := some silStart }
    if (cfg.speech_pad_ms : Rat) / 1000 < c.time - silStart then
      ({ st1 with speech_started := false, speech_start_time := none
                  buffer := [], buffer_samples := 0 },
       flushEmit st1)
    else maxCheck cfg st1
  else
    -- idle silence: pre-roll ring buffer only, then the max check
    maxCheck cfg { st with pre_buffer := pushPre cfg st.pre_buffer c.samples }

/-- `_trigger_transcription` (lines 114-124): flush, and prepend the
pre-roll before emitting.  No code in the repository ever calls this
helper; `add_audio`'s two emission paths invoke `on_segment_ready`
directly on the flushed buffer. -/
def triggerTranscription (st : BufSt) : BufSt × Option (List Sample) :=
  let st1 := { st with buffer := [], buffer_samples := 0 }
  match flushEmit st with
  | none => (st1, none)
  | some a =>
    if 0 < a.length then
      (st1, some (if st.pre_buffer ≠ [] then st.pre_buffer ++ a else a))
    else (st1, none)

/-- Feed a chunk sequence through `add_audio`, collecting the emitted
segments in order. -/
def runBuf (cfg : BufCfg) (st : BufSt) : List Chunk → BufSt × List (List Sample)
  | [] => (st, [])
  | c :: cs =>
    let r := addAudio cfg st c
    let rest := runBuf cfg r.1 cs
    (rest.1, match r.2 with | some a => a :: rest.2 | none => rest.2)

/-- Total samples of a chunk list. -/
def cumSamples (cs : List Chunk) : Nat := (cs.map (fun c => c.samples.length)).sum

/-! ### Predicates and concrete inputs used by the theorems -/

/-- A translator callable that never raises. -/
def NoRaise (tr? : Option Tr) : Prop :=
  ∀ tr x, tr? = some tr → ∃ t, tr x = Except.ok t

/-- The identity translator (always succeeds). -/
def trId : Tr := fun t => .ok t

/-- A translator that always raises. -/
def trErr : Tr := fun _ => .error ()

/-- A translator that raises exactly on the input "a" (the
retranslation text of the divergence-trim runs below) and succeeds on
everything else. -/
def trDiv : Tr := fun t => if t = str "a" then .error () else .ok t

/-- First input of the divergence-trim run: six one-letter sentences. -/
def xA : Str := str "a. b. c. d. e. f."

/-- Second input: ten one-letter sentences extending the first. -/
def xB : Str := str "a. b. c. d. e. f. g. h. i. j."

/-- Third input: the second sentence diverges from the committed "b". -/
def xC : Str := str "a. x."

/-- The divergence-trim run: commits two paragraphs, then hits a
mismatch whose retranslation raises. -/
def divergenceRun : TSMState :=
  runOps (some trDiv) [.proc xA, .proc xB, .proc xC]

/-- The state one call earlier, before the divergence-trim. -/
def divergenceRunPre : TSMState :=
  runOps (some trDiv) [.proc xA, .proc xB]

/-- Input for the short-draft commit: two 80-character sentences, so
the draft holds 2 sentences and 160 ≥ `DRAFT_CHAR_THRESHOLD` chars. -/
def xLong : Str := List.replicate 80 'a' ++ '.' :: List.replicate 80 'b'

/-- A nine-sentence draft, one over `MAX_DRAFT_SENTENCES`. -/
def dNine : List Str := List.replicate 9 (str "s")

/-! ## Theorems -/

set_option allowUnsafeReducibility true
attribute [local semireducible] Rat.mul Rat.inv Rat.add Rat.sub Rat.ofScientific

/-- Consumer observations refine `newestAtTake`: by induction over the
interleaving, tracking that the slot always holds the most recent
write. -/
theorem runSlot_eq_newestAtTake (evs : List SlotEv) :
    ∀ sl : TextSlot, (runSlot sl evs).2 = newestAtTake sl.latest_raw_text evs := by
  induction evs with
  | nil => intro sl; rfl
  | cons e evs ih =>
    intro sl
    cases e with
    | write v => simpa [runSlot, newestAtTake, slotWrite] using ih (slotWrite sl v)
    | take => simp [runSlot, newestAtTake, slotTake, ih]

/-- C3: the single-slot register conflates. If the producer writes
`v1`, `v2`, `v3` before the consumer wakes once, the consumer takes
exactly `v3`; in general, in any interleaving of the atomic
lock-protected write and take operations, every value the consumer
takes is the most recent producer write at that moment (`newestAtTake`),
so the consumer never processes an older hypothesis after a newer
one. -/
theorem slot_conflation :
    (∀ sl : TextSlot, ∀ v1 v2 v3 : Str,
      (runSlot sl [.write v1, .write v2, .write v3, .take]).2 = [v3]) ∧
    (∀ (sl : TextSlot) (evs : List SlotEv),
      (runSlot sl evs).2 = newestAtTake sl.latest_raw_text evs) := by
  refine ⟨fun sl v1 v2 v3 => ?_, fun sl evs => runSlot_eq_newestAtTake evs sl⟩
  rfl

/-- C10: segment emissions are independent of `min_segment_duration`.
Two buffers whose configurations agree on everything `add_audio` reads
(`max_segment_duration`, `speech_pad_ms`) produce identical states and
identical emission sequences on every chunk sequence, whatever their
`min_segment_duration`: the parameter is stored by `__init__` but read
by no trigger condition. -/
theorem emissions_ignore_min_segment_duration
    (cfg1 cfg2 : BufCfg) (st : BufSt) (cs : List Chunk)
    (hmax : cfg1.max_segment_duration = cfg2.max_segment_duration)
    (hpad : cfg1.speech_pad_ms = cfg2.speech_pad_ms) :
    runBuf cfg1 st cs = runBuf cfg2 st cs := by
  obtain ⟨m1, x1, p1⟩ := cfg1
  obtain ⟨m2, x2, p2⟩ := cfg2
  cases hmax
  cases hpad
  induction cs generalizing st with
  | nil => rfl
  | cons c cs ih =>
    have hstep : addAudio ⟨m1, x1, p1⟩ st c = addAudio ⟨m2, x1, p1⟩ st c := rfl
    simp only [runBuf, hstep, ih]

/-- Witness for C10: two configurations differing only in
`min_segment_duration` (1 s versus 5 s) give the same run on a
two-chunk input. -/
theorem emissions_ignore_min_segment_duration_witness :
    runBuf { min_segment_duration := 1, max_segment_duration := 2/16000, speech_pad_ms := 200 }
      initBufSt [⟨[1], true, 0⟩, ⟨[2], true, 1⟩]
    = runBuf { min_segment_duration := 5, max_segment_duration := 2/16000, speech_pad_ms := 200 }
      initBufSt [⟨[1], true, 0⟩, ⟨[2], true, 1⟩] :=
  emissions_ignore_min_segment_duration _ _ _ _ rfl rfl

/-! ### process_text leaves `_last_processed_text` at its input -/

theorem retranslateCommitted_last (tr? : Option Tr) (s : TSMState) :
    (retranslateCommitted tr? s).1.last_processed_text = s.last_processed_text := by
  cases tr? with
  | none => rfl
  | some tr =>
    by_cases h : s.committed_sources = []
    · simp [retranslateCommitted, h]
    · cases h2 : tr (joinSep [' '] s.committed_sources) <;>
        simp [retranslateCommitted, h, h2]

theorem fceLoop_last (tr? : Option Tr) (src : List Str) (committed : List Str) :
    ∀ (i mc : Nat) (s : TSMState),
      (fceLoop tr? src committed i mc s).2.1.last_processed_text = s.last_processed_text := by
  induction committed with
  | nil => intro i mc s; rfl
  | cons c rest ih =>
    intro i mc s
    unfold fceLoop
    split
    · exact retranslateCommitted_last _ _
    · split
      · exact ih _ _ _
      · exact retranslateCommitted_last _ _

theorem findCommittedEnd_last (tr? : Option Tr) (src : List Str) (s : TSMState) :
    (findCommittedEnd tr? src s).2.1.last_processed_text = s.last_processed_text := by
  unfold findCommittedEnd
  split
  · rfl
  · exact fceLoop_last _ _ _ _ _ _

theorem capDraft_last (s : TSMState) (d : List Str) :
    (capDraft s d).1.last_processed_text = s.last_processed_text := by
  unfold capDraft; split <;> rfl

theorem translateDraft_last (tr? : Option Tr) (s : TSMState) :
    (translateDraft tr? s).1.last_processed_text = s.last_processed_text := by
  cases tr? with
  | none => rfl
  | some tr =>
    cases h : tr (joinSep [' '] s.draft_sources) <;> simp [translateDraft, h]

theorem commitBatchTranslate_last (tr? : Option Tr) (tc : List Str) (s1 : TSMState) :
    (commitBatchTranslate tr? tc s1).1.last_processed_text = s1.last_processed_text := by
  cases tr? with
  | none => rfl
  | some tr =>
    cases h : tr (joinSep [' '] tc) with
    | ok t =>
      by_cases ht : t = [] <;> simp [commitBatchTranslate, h, ht]
    | error e => simp [commitBatchTranslate, h]

theorem retranslateRemaining_last (tr? : Option Tr) (s3 : TSMState) :
    (retranslateRemaining tr? s3).1.last_processed_text = s3.last_processed_text := by
  cases tr? with
  | none => rfl
  | some tr =>
    by_cases h : s3.draft_sources = []
    · simp [retranslateRemaining, h]
    · cases h2 : tr (joinSep [' '] s3.draft_sources) <;>
        simp [retranslateRemaining, h, h2]

theorem checkCommitThreshold_last (tr? : Option Tr) (s : TSMState) :
    (checkCommitThreshold tr? s).1.last_processed_text = s.last_processed_text := by
  unfold checkCommitThreshold
  dsimp only
  split
  · rw [retranslateRemaining_last, commitBatchTranslate_last]
  · rfl

theorem processSegmented_last (tr? : Option Tr) (s : TSMState) (sents : List Str) :
    (processSegmented tr? s sents).1.last_processed_text = s.last_processed_text := by
  unfold processSegmented
  dsimp only
  split
  · simp [capDraft_last, findCommittedEnd_last]
  · simp [checkCommitThreshold_last, translateDraft_last, capDraft_last,
      findCommittedEnd_last]

theorem processTextCore_last (tr? : Option Tr) (s : TSMState) (x : Str) :
    (processTextCore tr? s x).1.last_processed_text = x := by
  unfold processTextCore
  dsimp only
  split
  · rfl
  · split
    · rfl
    · split <;> exact processSegmented_last tr? _ _

/-- C1: `process_text` is idempotent. Calling it again with the input
of the previous call returns the very state snapshot the previous call
returned, leaves the manager state untouched and invokes the
translator zero times (the duplicate check at the top of
`process_text` returns the cached state). -/
theorem process_text_idempotent (tr? : Option Tr) (s : TSMState) (x : Str) :
    processText tr? (processText tr? s x).2.1 x
      = ((processText tr? s x).1, (processText tr? s x).2.1, 0) := by
  by_cases h : x = s.last_processed_text
  · simp [processText, h]
  · have hlast : (processTextCore tr? s x).1.last_processed_text = x :=
      processTextCore_last tr? s x
    simp [processText, h, hlast]

/-! ### Frame lemmas: which fields each helper leaves alone -/

theorem retranslateCommitted_draft (tr? : Option Tr) (s : TSMState) :
    (retranslateCommitted tr? s).1.draft_sources = s.draft_sources := by
  cases tr? with
  | none => rfl
  | some tr =>
    by_cases h : s.committed_sources = []
    · simp [retranslateCommitted, h]
    · cases h2 : tr (joinSep [' '] s.committed_sources) <;>
        simp [retranslateCommitted, h, h2]

theorem fceLoop_draft (tr? : Option Tr) (src : List Str) (committed : List Str) :
    ∀ (i mc : Nat) (s : TSMState),
      (fceLoop tr? src committed i mc s).2.1.draft_sources = s.draft_sources := by
  induction committed with
  | nil => intro i mc s; rfl
  | cons c rest ih =>
    intro i mc s
    unfold fceLoop
    split
    · exact retranslateCommitted_draft _ _
    · split
      · exact ih _ _ _
      · exact retranslateCommitted_draft _ _

theorem findCommittedEnd_draft (tr? : Option Tr) (src : List Str) (s : TSMState) :
    (findCommittedEnd tr? src s).2.1.draft_sources = s.draft_sources := by
  unfold findCommittedEnd
  split
  · rfl
  · exact fceLoop_draft _ _ _ _ _ _

theorem translateDraft_draftSources (tr? : Option Tr) (s : TSMState) :
    (translateDraft tr? s).1.draft_sources = s.draft_sources := by
  cases tr? with
  | none => rfl
  | some tr =>
    cases h : tr (joinSep [' '] s.draft_sources) <;> simp [translateDraft, h]

theorem commitBatchTranslate_draft (tr? : Option Tr) (tc : List Str) (s1 : TSMState) :
    (commitBatchTranslate tr? tc s1).1.draft_sources = s1.draft_sources := by
  cases tr? with
  | none => rfl
  | some tr =>
    cases h : tr (joinSep [' '] tc) with
    | ok t => by_cases ht : t = [] <;> simp [commitBatchTranslate, h, ht]
    | error e => simp [commitBatchTranslate, h]

theorem retranslateRemaining_draft (tr? : Option Tr) (s3 : TSMState) :
    (retranslateRemaining tr? s3).1.draft_sources = s3.draft_sources := by
  cases tr? with
  | none => rfl
  | some tr =>
    by_cases h : s3.draft_sources = []
    · simp [retranslateRemaining, h]
    · cases h2 : tr (joinSep [' '] s3.draft_sources) <;>
        simp [retranslateRemaining, h, h2]

/-- `_check_commit_threshold` either leaves the draft alone or slices
`COMMIT_COUNT = 4` sentences off it. -/
theorem checkCommitThreshold_draft (tr? : Option Tr) (s : TSMState) :
    (checkCommitThreshold tr? s).1.draft_sources = s.draft_sources.drop 4
      ∨ (checkCommitThreshold tr? s).1.draft_sources = s.draft_sources := by
  unfold checkCommitThreshold
  dsimp only
  split
  · left
    rw [retranslateRemaining_draft]
    dsimp only
    rw [commitBatchTranslate_draft]
  · right; rfl

/-- The cap never leaves more than `MAX_DRAFT_SENTENCES = 8` sentences
in the draft. -/
theorem capDraft_len (s : TSMState) (d : List Str) :
    (capDraft s d).2.length ≤ 8 := by
  unfold capDraft
  split
  · simp only [List.length_drop]
    omega
  · rename_i h
    dsimp only
    omega

/-- The aligned-and-capped pipeline never leaves more than 8 draft
sentences. -/
theorem processSegmented_draft_le (tr? : Option Tr) (s : TSMState) (sents : List Str) :
    (processSegmented tr? s sents).1.draft_sources.length ≤ 8 := by
  unfold processSegmented
  dsimp only
  split
  · rename_i hnil
    dsimp only
    rw [hnil]
    exact Nat.le_of_eq rfl |>.trans (by norm_num)
  · have hcap := capDraft_len (findCommittedEnd tr? sents s).2.1
      (sents.drop (findCommittedEnd tr? sents s).1)
    rcases checkCommitThreshold_draft tr?
        (translateDraft tr? _).1 with hd | hd <;>
      rw [hd, translateDraft_draftSources] <;> dsimp only <;>
      first
        | omega
        | (simp only [List.length_drop]; omega)

/-- One `process_text` call preserves the draft bound. -/
theorem processText_draft_le (tr? : Option Tr) (s : TSMState) (x : Str)
    (h : s.draft_sources.length ≤ 8) :
    (processText tr? s x).2.1.draft_sources.length ≤ 8 := by
  unfold processText
  split
  · exact h
  · unfold processTextCore
    dsimp only
    split
    · exact h
    · split
      · exact h
      · split <;> exact processSegmented_draft_le tr? _ _

/-- Any operation sequence from a fresh manager respects the draft
bound. -/
theorem runOps_draft_le (tr? : Option Tr) (ops : List TSMOp) :
    (runOps tr? ops).draft_sources.length ≤ 8 := by
  suffices h : ∀ (l : List TSMOp) (s : TSMState), s.draft_sources.length ≤ 8 →
      (l.foldl (fun s op =>
        match op with
        | .proc x => (processText tr? s x).2.1
        | .reset => initTSM) s).draft_sources.length ≤ 8 by
    exact h ops initTSM (by simp [initTSM])
  intro l
  induction l with
  | nil => intro s hs; exact hs
  | cons op rest ih =>
    intro s hs
    cases op with
    | proc x => exact ih _ (processText_draft_le tr? s x hs)
    | reset => exact ih _ (by simp [initTSM])

/-- C2: after every `process_text` call, on any prior call history,
`len(_draft_sources) ≤ MAX_DRAFT_SENTENCES = 8`; and whenever the
freshly computed draft exceeds that bound, the force-commit step
(`capDraft`, which takes no translator and hence performs zero
translator invocations) appends exactly the oldest excess sentences to
the committed-source list, leaves the committed paragraphs untouched,
and keeps only the newest 8 sentences as the draft. -/
theorem draft_bound_and_force_commit :
    (∀ (tr? : Option Tr) (ops : List TSMOp) (x : Str),
      (processText tr? (runOps tr? ops) x).2.1.draft_sources.length ≤ 8) ∧
    (∀ (s : TSMState) (d : List Str), 8 < d.length →
      (capDraft s d).1.committed_sources = s.committed_sources ++ d.take (d.length - 8) ∧
      (capDraft s d).1.committed_paragraphs = s.committed_paragraphs ∧
      (capDraft s d).2 = d.drop (d.length - 8)) := by
  constructor
  · intro tr? ops x
    exact processText_draft_le tr? _ x (runOps_draft_le tr? ops)
  · intro s d hd
    simp [capDraft, hd]

/-- Witness for C2 at concrete inputs: one call on a fresh manager
keeps the draft within bound, and a nine-sentence draft is capped with
its oldest sentence force-committed. -/
theorem draft_bound_and_force_commit_witness :
    (processText none (runOps none []) (str "hello there")).2.1.draft_sources.length ≤ 8 ∧
    ((capDraft initTSM dNine).1.committed_sources
        = initTSM.committed_sources ++ dNine.take (dNine.length - 8) ∧
      (capDraft initTSM dNine).1.committed_paragraphs = initTSM.committed_paragraphs ∧
      (capDraft initTSM dNine).2 = dNine.drop (dNine.length - 8)) :=
  ⟨draft_bound_and_force_commit.1 none [] (str "hello there"),
   draft_bound_and_force_commit.2 initTSM dNine (by decide)⟩

/-! ### The committed-paragraphs/committed-sources invariant -/

theorem retranslateCommitted_inv (tr? : Option Tr) (s : TSMState) (hNR : NoRaise tr?) :
    (retranslateCommitted tr? s).1.committed_paragraphs.length
      ≤ (retranslateCommitted tr? s).1.committed_sources.length := by
  cases tr? with
  | none => simp [retranslateCommitted]
  | some tr =>
    by_cases h : s.committed_sources = []
    · simp [retranslateCommitted, h]
    · obtain ⟨t, ht⟩ := hNR tr (joinSep [' '] s.committed_sources) rfl
      have hlen : 0 < s.committed_sources.length := List.length_pos.mpr h
      by_cases h2 : t = [] <;> (simp [retranslateCommitted, h, ht, h2]; try omega)

theorem fceLoop_inv (tr? : Option Tr) (src : List Str) (hNR : NoRaise tr?)
    (committed : List Str) :
    ∀ (i mc : Nat) (s : TSMState),
      s.committed_paragraphs.length ≤ s.committed_sources.length →
      (fceLoop tr? src committed i mc s).2.1.committed_paragraphs.length
        ≤ (fceLoop tr? src committed i mc s).2.1.committed_sources.length := by
  induction committed with
  | nil => intro i mc s hs; exact hs
  | cons c rest ih =>
    intro i mc s hs
    unfold fceLoop
    split
    · exact retranslateCommitted_inv tr? _ hNR
    · split
      · exact ih _ _ _ hs
      · exact retranslateCommitted_inv tr? _ hNR

theorem findCommittedEnd_inv (tr? : Option Tr) (src : List Str) (s : TSMState)
    (hNR : NoRaise tr?)
    (hs : s.committed_paragraphs.length ≤ s.committed_sources.length) :
    (findCommittedEnd tr? src s).2.1.committed_paragraphs.length
      ≤ (findCommittedEnd tr? src s).2.1.committed_sources.length := by
  unfold findCommittedEnd
  split
  · exact hs
  · exact fceLoop_inv tr? src hNR _ _ _ _ hs

theorem capDraft_inv (s : TSMState) (d : List Str)
    (hs : s.committed_paragraphs.length ≤ s.committed_sources.length) :
    (capDraft s d).1.committed_paragraphs.length
      ≤ (capDraft s d).1.committed_sources.length := by
  unfold capDraft
  split <;> dsimp only <;> (try simp only [List.length_append]) <;> omega

theorem translateDraft_committedSources (tr? : Option Tr) (s : TSMState) :
    (translateDraft tr? s).1.committed_sources = s.committed_sources := by
  cases tr? with
  | none => rfl
  | some tr =>
    cases h : tr (joinSep [' '] s.draft_sources) <;> simp [translateDraft, h]

theorem translateDraft_committedParagraphs (tr? : Option Tr) (s : TSMState) :
    (translateDraft tr? s).1.committed_paragraphs = s.committed_paragraphs := by
  cases tr? with
  | none => rfl
  | some tr =>
    cases h : tr (joinSep [' '] s.draft_sources) <;> simp [translateDraft, h]

theorem commitBatchTranslate_committedSources (tr? : Option Tr) (tc : List Str)
    (s1 : TSMState) :
    (commitBatchTranslate tr? tc s1).1.committed_sources = s1.committed_sources := by
  cases tr? with
  | none => rfl
  | some tr =>
    cases h : tr (joinSep [' '] tc) with
    | ok t => by_cases ht : t = [] <;> simp [commitBatchTranslate, h, ht]
    | error e => simp [commitBatchTranslate, h]

theorem commitBatchTranslate_paragraphs_le (tr? : Option Tr) (tc : List Str)
    (s1 : TSMState) :
    (commitBatchTranslate tr? tc s1).1.committed_paragraphs.length
      ≤ s1.committed_paragraphs.length + 1 := by
  cases tr? with
  | none => exact Nat.le_succ _
  | some tr =>
    cases h : tr (joinSep [' '] tc) with
    | ok t => by_cases ht : t = [] <;> simp [commitBatchTranslate, h, ht]
    | error e => simp [commitBatchTranslate, h]

theorem retranslateRemaining_committedSources (tr? : Option Tr) (s3 : TSMState) :
    (retranslateRemaining tr? s3).1.committed_sources = s3.committed_sources := by
  cases tr? with
  | none => rfl
  | some tr =>
    by_cases h : s3.draft_sources = []
    · simp [retranslateRemaining, h]
    · cases h2 : tr (joinSep [' '] s3.draft_sources) <;>
        simp [retranslateRemaining, h, h2]

theorem retranslateRemaining_committedParagraphs (tr? : Option Tr) (s3 : TSMState) :
    (retranslateRemaining tr? s3).1.committed_paragraphs = s3.committed_paragraphs := by
  cases tr? with
  | none => rfl
  | some tr =>
    by_cases h : s3.draft_sources = []
    · simp [retranslateRemaining, h]
    · cases h2 : tr (joinSep [' '] s3.draft_sources) <;>
        simp [retranslateRemaining, h, h2]

/-- The commit check preserves the invariant: it extends the committed
sources by a nonempty batch whenever it appends a paragraph. -/
theorem checkCommitThreshold_inv (tr? : Option Tr) (s : TSMState)
    (hs : s.committed_paragraphs.length ≤ s.committed_sources.length) :
    (checkCommitThreshold tr? s).1.committed_paragraphs.length
      ≤ (checkCommitThreshold tr? s).1.committed_sources.length := by
  unfold checkCommitThreshold
  dsimp only
  split
  · rename_i hcond
    -- the batch is nonempty: the draft is nonempty under either trigger
    have hne : s.draft_sources ≠ [] := by
      rcases hcond with h6 | hchars
      · intro hnil; rw [hnil] at h6; simp at h6
      · intro hnil; rw [hnil] at hchars; simp at hchars
    have hpos : 0 < s.draft_sources.length := List.length_pos.mpr hne
    have htc : 1 ≤ (s.draft_sources.take
        (if s.draft_sources.length < 4 then max 1 (s.draft_sources.length - 1) else 4)).length := by
      simp only [List.length_take]
      split <;> omega
    rw [retranslateRemaining_committedParagraphs, retranslateRemaining_committedSources]
    dsimp only
    rw [commitBatchTranslate_committedSources]
    refine le_trans (commitBatchTranslate_paragraphs_le _ _ _) ?_
    dsimp only
    simp only [List.length_append]
    omega
  · exact hs

theorem processSegmented_inv (tr? : Option Tr) (s : TSMState) (sents : List Str)
    (hNR : NoRaise tr?)
    (hs : s.committed_paragraphs.length ≤ s.committed_sources.length) :
    (processSegmented tr? s sents).1.committed_paragraphs.length
      ≤ (processSegmented tr? s sents).1.committed_sources.length := by
  unfold processSegmented
  dsimp only
  have hfce := findCommittedEnd_inv tr? sents s hNR hs
  have hcap := capDraft_inv (findCommittedEnd tr? sents s).2.1
    (sents.drop (findCommittedEnd tr? sents s).1) hfce
  split
  · exact hcap
  · refine checkCommitThreshold_inv tr? _ ?_
    rw [translateDraft_committedSources, translateDraft_committedParagraphs]
    exact hcap

theorem processText_inv (tr? : Option Tr) (s : TSMState) (x : Str) (hNR : NoRaise tr?)
    (hs : s.committed_paragraphs.length ≤ s.committed_sources.length) :
    (processText tr? s x).2.1.committed_paragraphs.length
      ≤ (processText tr? s x).2.1.committed_sources.length := by
  unfold processText
  split
  · exact hs
  · unfold processTextCore
    dsimp only
    split
    · exact hs
    · split
      · exact hs
      · split <;> exact processSegmented_inv tr? _ _ hNR hs

/-- C6 counterexample: the invariant
`len(committedParagraphs) ≤ len(committedSources)` fails on a reachable
run.  Three `process_text` calls with a translator that raises exactly
on the retranslation text "a": the first two calls commit the
paragraphs "a b c d" and "e f g h"; the third call's input diverges at
the second sentence, `_find_committed_end` trims the committed sources
to `["a"]`, and `_retranslate_committed`'s translator call raises, so
the two stale paragraphs survive next to a single committed source. -/
theorem paragraphs_le_sources_cex :
    ¬ (divergenceRun.committed_paragraphs.length
        ≤ divergenceRun.committed_sources.length) := by decide

/-- C6 amended: for every translator that never raises (and for the
translator-less manager), `len(committedParagraphs) ≤
len(committedSources)` holds after every operation (any mix of
`process_text` calls and `reset`) from a fresh manager. -/
theorem paragraphs_le_sources_of_noRaise (tr? : Option Tr) (ops : List TSMOp)
    (hNR : NoRaise tr?) :
    (runOps tr? ops).committed_paragraphs.length
      ≤ (runOps tr? ops).committed_sources.length := by
  suffices h : ∀ (l : List TSMOp) (s : TSMState),
      s.committed_paragraphs.length ≤ s.committed_sources.length →
      ((l.foldl (fun s op =>
        match op with
        | .proc x => (processText tr? s x).2.1
        | .reset => initTSM) s).committed_paragraphs.length
        ≤ (l.foldl (fun s op =>
        match op with
        | .proc x => (processText tr? s x).2.1
        | .reset => initTSM) s).committed_sources.length) by
    exact h ops initTSM (by simp [initTSM])
  intro l
  induction l with
  | nil => intro s hs; exact hs
  | cons op rest ih =>
    intro s hs
    cases op with
    | proc x => exact ih _ (processText_inv tr? s x hNR hs)
    | reset => exact ih _ (by simp [initTSM])

/-- Witness for the amended C6: the translator-less manager (for which
`NoRaise` holds vacuously) keeps the invariant over a two-call run. -/
theorem paragraphs_le_sources_of_noRaise_witness :
    (runOps none [.proc xA, .proc xB]).committed_paragraphs.length
      ≤ (runOps none [.proc xA, .proc xB]).committed_sources.length :=
  paragraphs_le_sources_of_noRaise none [.proc xA, .proc xB]
    (fun _ _ h => nomatch h)

/-- C7 counterexample: on the divergence-trim path a raised translator
exception does **not** leave the rebuilt committed text empty — the
stale paragraphs of the previous call survive unchanged (and nonempty),
while the committed sources have been trimmed to `["a"]`. -/
theorem translator_error_paragraphs_cex :
    divergenceRun.committed_paragraphs = divergenceRunPre.committed_paragraphs ∧
    divergenceRun.committed_paragraphs ≠ [] ∧
    divergenceRun.committed_sources = [str "a"] := by decide

/-- C7 amended: translator exceptions never propagate out of
`process_text` (every call site catches them; the embedding of each
call site is total).  On a draft-translation failure the draft
translation is set to empty; on a `_retranslate_committed` failure
(the divergence-trim path) the state — in particular the committed
paragraphs — is left unchanged rather than emptied; subsequent calls
proceed normally. -/
theorem translator_error_handling :
    (∀ (tr : Tr) (s : TSMState), s.committed_sources ≠ [] →
      tr (joinSep [' '] s.committed_sources) = .error () →
      retranslateCommitted (some tr) s = (s, 1)) ∧
    (∀ (tr : Tr) (s : TSMState),
      tr (joinSep [' '] s.draft_sources) = .error () →
      translateDraft (some tr) s = ({ s with draft_translation := [] }, 1)) := by
  constructor
  · intro tr s hne herr
    simp [retranslateCommitted, hne, herr]
  · intro tr s herr
    simp [translateDraft, herr]

/-- Witness for the amended C7: the always-raising translator on a
state with one committed source and one draft sentence. -/
theorem translator_error_handling_witness :
    retranslateCommitted (some trErr) { initTSM with committed_sources := [str "a"] }
      = ({ initTSM with committed_sources := [str "a"] }, 1) ∧
    translateDraft (some trErr) { initTSM with draft_sources := [str "b"] }
      = ({ initTSM with draft_sources := [str "b"], draft_translation := [] }, 1) :=
  ⟨translator_error_handling.1 trErr _ (by decide) rfl,
   translator_error_handling.2 trErr _ rfl⟩

/-! ### Segmentation of effectively-empty input -/

/-- Every character of every part of `splitD x` is a character of
`x`. -/
theorem splitD_chars (x : Str) :
    ∀ part ∈ splitD x, ∀ c ∈ part, c ∈ x := by
  induction x with
  | nil =>
    intro part hp c hc
    simp [splitD] at hp
    simp [hp] at hc
  | cons a rest ih =>
    intro part hp c hc
    unfold splitD at hp
    by_cases hd : isDelim a
    · rw [if_pos hd] at hp
      rcases List.mem_cons.mp hp with hp | hp
      · simp [hp] at hc
      · exact List.mem_cons_of_mem a (ih part hp c hc)
    · rw [if_neg hd] at hp
      rcases hsp : splitD rest with _ | ⟨g, gs⟩
      · rw [hsp] at hp
        simp at hp
        subst hp
        rcases List.mem_singleton.mp hc with rfl
        exact List.mem_cons_self _ _
      · rw [hsp] at hp
        rcases List.mem_cons.mp hp with hp | hp
        · subst hp
          rcases List.mem_cons.mp hc with rfl | hc
          · exact List.mem_cons_self _ _
          · refine List.mem_cons_of_mem a (ih g ?_ c hc)
            rw [hsp]; exact List.mem_cons_self _ _
        · exact List.mem_cons_of_mem a
            (ih part (by rw [hsp]; exact List.mem_cons_of_mem g hp) c hc)

/-- A string of whitespace strips to nothing. -/
theorem strip_eq_nil_of_all_space (p : Str) (h : ∀ c ∈ p, isSpace c) :
    strip p = [] := by
  have h1 : p.dropWhile isSpace = [] := by
    rw [List.dropWhile_eq_nil_iff]
    intro c hc; exact h c hc
  simp [strip, h1]

/-- When the whole input strips to nothing, every character is
whitespace. -/
theorem all_space_of_strip_eq_nil (x : Str) (h : strip x = []) :
    ∀ c ∈ x, isSpace c := by
  unfold strip at h
  rw [List.reverse_eq_nil_iff, List.dropWhile_eq_nil_iff] at h
  intro c hc
  rcases List.mem_append.mp
      ((List.takeWhile_append_dropWhile (p := isSpace) (l := x)) ▸ hc) with h1 | h1
  · exact List.mem_takeWhile_imp h1
  · exact h c (List.mem_reverse.mpr h1)

/-- `_segment_sentences` yields nothing on input that strips empty
(the `not full_source_text.strip()` guard of `process_text` is the
only extra case next to the segmentation loop's own strips). -/
theorem segment_nil_of_strip_nil (x : Str) (h : strip x = []) :
    segmentSentences x = [] := by
  have hall := all_space_of_strip_eq_nil x h
  unfold segmentSentences
  rw [List.flatten_eq_nil_iff]
  intro l hl
  rcases List.mem_map.mp hl with ⟨part, hpart, rfl⟩
  have hps : strip part = [] :=
    strip_eq_nil_of_all_space part (fun c hc => hall c (splitD_chars x part hpart c hc))
  simp [hps]

/-- C4: from a fresh manager, one `process_text` call whose input
segments into six sentences `[A,B,C,D,E,F]` (with the batch
translation succeeding and nonempty) commits exactly `[A,B,C,D]`,
appends exactly the one translated paragraph `P` (paragraph 0), and
leaves the draft `[E,F]`: six sentences meet
`DRAFT_COMMIT_THRESHOLD = 6`, and `COMMIT_COUNT = 4` are committed. -/
theorem fresh_six_sentence_commit (tr : Tr) (x A B C D E F P : Str)
    (hseg : segmentSentences x = [A, B, C, D, E, F])
    (htr : tr (joinSep [' '] [A, B, C, D]) = .ok P)
    (hP : P ≠ []) :
    (processText (some tr) initTSM x).2.1.committed_sources = [A, B, C, D] ∧
    (processText (some tr) initTSM x).2.1.committed_paragraphs = [P] ∧
    (processText (some tr) initTSM x).2.1.draft_sources = [E, F] := by
  have hx : ¬ (x = []) := by
    intro h
    subst h
    rw [show segmentSentences [] = [] from rfl] at hseg
    simp at hseg
  have hstrip : ¬ (strip x = []) := by
    intro h
    rw [segment_nil_of_strip_nil x h] at hseg
    simp at hseg
  cases htd : tr (joinSep [' '] [A, B, C, D, E, F]) <;>
    cases hrr : tr (joinSep [' '] [E, F]) <;>
      refine ⟨?_, ?_, ?_⟩ <;>
        norm_num [processText, processTextCore, processSegmented, findCommittedEnd,
          capDraft, translateDraft, checkCommitThreshold, commitBatchTranslate,
          retranslateRemaining, initTSM, hx, hstrip, hseg, htd, hrr, htr, hP,
          List.cons_ne_nil]

/-- Witness for C4: the input "A. B. C. D. E. F." under the identity
translator commits `["A","B","C","D"]` with paragraph "A B C D" and
leaves the draft `["E","F"]`. -/
theorem fresh_six_sentence_commit_witness :
    (processText (some trId) initTSM (str "A. B. C. D. E. F.")).2.1.committed_sources
        = [str "A", str "B", str "C", str "D"] ∧
    (processText (some trId) initTSM (str "A. B. C. D. E. F.")).2.1.committed_paragraphs
        = [str "A B C D"] ∧
    (processText (some trId) initTSM (str "A. B. C. D. E. F.")).2.1.draft_sources
        = [str "E", str "F"] :=
  fresh_six_sentence_commit trId (str "A. B. C. D. E. F.")
    (str "A") (str "B") (str "C") (str "D") (str "E") (str "F") (str "A B C D")
    (by decide) (by rfl) (by decide)

/-- C5 (code defect): when the char-threshold commit fires on a short
draft, `_check_commit_threshold` computes `commit_target = max 1
(total - 1)` so as to "Leave 1 if possible" (its own comment), but then
slices `COMMIT_COUNT = 4` entries off the draft.  On a fresh manager
fed two 80-character sentences (160 ≥ `DRAFT_CHAR_THRESHOLD = 150`),
only the first sentence is committed (one paragraph), yet the draft is
left empty — the second sentence is dropped from the draft without
being committed, and no draft re-translation happens (the claim expects
the draft to retain it and be re-translated). -/
theorem short_draft_commit_drops_sentence :
    (processText (some trId) initTSM xLong).2.1.committed_sources
        = [List.replicate 80 'a'] ∧
    (processText (some trId) initTSM xLong).2.1.committed_paragraphs
        = [List.replicate 80 'a'] ∧
    (processText (some trId) initTSM xLong).2.1.draft_sources = [] ∧
    (processText (some trId) initTSM xLong).2.1.draft_translation = [] := by decide

/-! ### Forced emission at max duration under continuous speech -/

/-- Auxiliary induction for C8: from a consistent mid-accumulation
state with empty pre-roll, an all-speech chunk sequence whose first
`k` extensions stay below `max_segment_duration` and whose `(k+1)`-st
reaches it emits nothing for `k` calls and on call `k+1` emits the
whole accumulated buffer, leaving exactly the fresh state. -/
theorem runBuf_speech_first_trigger (cfg : BufCfg) :
    ∀ (cs : List Chunk) (k : Nat) (st : BufSt),
      (∀ c ∈ cs, c.is_speech = true) → k < cs.length →
      st.pre_buffer = [] →
      st.buffer_samples = (st.buffer.map List.length).sum →
      (∀ i, i < k →
        (((st.buffer_samples + cumSamples (cs.take (i+1)) : Nat) : Rat)) / 16000
          < cfg.max_segment_duration) →
      cfg.max_segment_duration
        ≤ (((st.buffer_samples + cumSamples (cs.take (k+1)) : Nat) : Rat)) / 16000 →
      runBuf cfg st (cs.take (k+1))
        = (initBufSt, [(st.buffer ++ (cs.take (k+1)).map (fun c => c.samples)).flatten]) := by
  intro cs
  induction cs with
  | nil =>
    intro k st _ hk
    exact absurd hk (by simp)
  | cons c rest ih =>
    intro k st hsp hk hpre hsam hlt htrig
    have hcs : c.is_speech = true := hsp c (List.mem_cons_self _ _)
    cases k with
    | zero =>
      have htrig' : cfg.max_segment_duration
          ≤ (((st.buffer_samples + c.samples.length : Nat) : Rat)) / 16000 := by
        simpa [cumSamples] using htrig
      simp only [List.take, runBuf, addAudio, hcs, if_true, maxCheck]
      rw [if_pos htrig']
      simp [flushEmit, initBufSt, hpre]
    | succ k =>
      have hlt0 : (((st.buffer_samples + c.samples.length : Nat) : Rat)) / 16000
          < cfg.max_segment_duration := by
        simpa [cumSamples] using hlt 0 (Nat.succ_pos k)
      have hstep : runBuf cfg st ((c :: rest).take (k + 1 + 1))
          = (fun r => (r.1, r.2))
            (runBuf cfg { st with
                speech_started := true
                speech_start_time := if st.speech_started then st.speech_start_time
                  else some c.time
                silence_start_time := none
                buffer := st.buffer ++ [c.samples]
                buffer_samples := st.buffer_samples + c.samples.length }
              (rest.take (k + 1))) := by
        simp only [List.take, runBuf, addAudio, hcs, if_true, maxCheck]
        rw [if_neg (not_le.mpr hlt0)]
      rw [hstep]
      have hres := ih k { st with
          speech_started := true
          speech_start_time := if st.speech_started then st.speech_start_time
            else some c.time
          silence_start_time := none
          buffer := st.buffer ++ [c.samples]
          buffer_samples := st.buffer_samples + c.samples.length }
        (fun d hd => hsp d (List.mem_cons_of_mem c hd))
        (by simpa using Nat.lt_of_succ_lt_succ hk)
        hpre
        (by simp [hsam, List.map_append])
        (fun i hi => by
          have := hlt (i + 1) (Nat.succ_lt_succ hi)
          simpa [cumSamples, Nat.add_assoc] using this)
        (by
          have := htrig
          simpa [cumSamples, Nat.add_assoc] using this)
      rw [hres]
      simp [List.map_cons, List.append_assoc]

/-- C8: under continuous speech (every chunk classified as speech) a
forced emission occurs on the first `add_audio` call at which the
accumulated buffer duration reaches `max_segment_duration`, with no
silence ever observed: the `k` earlier calls emit nothing, call `k+1`
emits the entire accumulated audio, and the buffer and speech-tracking
state are fully reset (the resulting state is the fresh one).  The
duration check runs on every chunk: the hypotheses constrain every
prefix, and the emission happens at the first prefix reaching the
bound. -/
theorem forced_emission_at_max_duration (cfg : BufCfg) (cs : List Chunk) (k : Nat)
    (hsp : ∀ c ∈ cs, c.is_speech = true) (hk : k < cs.length)
    (hlt : ∀ i, i < k →
      ((cumSamples (cs.take (i+1)) : Nat) : Rat) / 16000 < cfg.max_segment_duration)
    (htrig : cfg.max_segment_duration
      ≤ ((cumSamples (cs.take (k+1)) : Nat) : Rat) / 16000) :
    runBuf cfg initBufSt (cs.take (k+1))
      = (initBufSt, [((cs.take (k+1)).map (fun c => c.samples)).flatten]) := by
  have h := runBuf_speech_first_trigger cfg cs k initBufSt hsp hk rfl rfl
    (fun i hi => by simpa [initBufSt] using hlt i hi)
    (by simpa [initBufSt] using htrig)
  simpa [initBufSt] using h

/-- Witness for C8: with `max_segment_duration = 2/16000` s (two
samples), two one-sample speech chunks trigger the forced emission on
the second call, emitting both samples and resetting the state. -/
theorem forced_emission_at_max_duration_witness :
    runBuf { min_segment_duration := 1, max_segment_duration := 2/16000, speech_pad_ms := 200 }
        initBufSt (List.take (1+1) [⟨[1], true, 0⟩, ⟨[2], true, 1⟩])
      = (initBufSt,
         [((List.take (1+1) ([⟨[1], true, 0⟩, ⟨[2], true, 1⟩] : List Chunk)).map
            (fun c => c.samples)).flatten]) :=
  forced_emission_at_max_duration _ _ 1 (by decide) (by decide)
    (by decide) (by decide)

/-- C9 (code defect): while Idle, a silence chunk goes only to the
pre-roll ring buffer (the main buffer stays empty) — but the pre-roll
is never prepended to an emitted segment.  `add_audio`'s emission
paths hand `on_segment_ready` the flushed main buffer only: here the
emitted segment is `[1, 2]`, not `[9, 9, 1, 2]`, even though the
pre-roll still holds `[9, 9]` at emission time.  The prepend exists
only in `_trigger_transcription`, which no code in the repository
calls; on the same state that dead helper would emit `[9, 9, 1, 2]`
exactly as the claim describes. -/
theorem preroll_not_prepended :
    (runBuf { min_segment_duration := 1, max_segment_duration := 2/16000, speech_pad_ms := 200 }
        initBufSt [⟨[9, 9], false, 0⟩]).1
      = { initBufSt with pre_buffer := [9, 9] } ∧
    (runBuf { min_segment_duration := 1, max_segment_duration := 2/16000, speech_pad_ms := 200 }
        initBufSt [⟨[9, 9], false, 0⟩, ⟨[1, 2], true, 1⟩]).2 = [[1, 2]] ∧
    (runBuf { min_segment_duration := 1, max_segment_duration := 2/16000, speech_pad_ms := 200 }
        initBufSt [⟨[9, 9], false, 0⟩, ⟨[1, 2], true, 1⟩]).1.pre_buffer = [9, 9] ∧
    (triggerTranscription
        { initBufSt with buffer := [[1, 2]], buffer_samples := 2, pre_buffer := [9, 9] }).2
      = some [9, 9, 1, 2] := by decide

/-! ### find_longest_match stays inside its window

These lemmas certify the fuel discipline of `matchSum`: every
nontrivial match returned by `findLongestMatch` lies strictly inside
the requested window, so each recursive split of `matchSumGo` shrinks
the range measure and the fuel `a.length + b.length + 1` used by
`matchSum` can never run out (`matchSumGo_fuel_irrel`). -/

theorem lookupD_cases (l : List (Nat × Nat)) (key : Nat) :
    lookupD l key = 0 ∨ ∃ p ∈ l, p.1 = key ∧ p.2 = lookupD l key := by
  unfold lookupD
  cases h : l.find? (fun p => p.1 = key) with
  | none => exact Or.inl rfl
  | some p =>
    refine Or.inr ⟨p, List.mem_of_find?_eq_some h, ?_, rfl⟩
    have := List.find?_some h
    simpa using this

theorem innerLoop_inv (alo ahi blo bhi i : Nat) (hialo : alo ≤ i) (hiahi : i < ahi)
    (j2len : List (Nat × Nat)) (hj : J2Inv alo blo bhi i j2len) :
    ∀ (js : List Nat) (acc : List (Nat × Nat)) (best : Nat × Nat × Nat),
      (∀ j ∈ js, blo ≤ j ∧ j < bhi) →
      J2Inv alo blo bhi (i + 1) acc →
      BestInv alo ahi blo bhi best →
      J2Inv alo blo bhi (i + 1) (innerLoop j2len i js acc best).1 ∧
      BestInv alo ahi blo bhi (innerLoop j2len i js acc best).2 := by
  intro js
  induction js with
  | nil => intro acc best _ hacc hbest; exact ⟨hacc, hbest⟩
  | cons j js ih =>
    intro acc best hjs hacc hbest
    obtain ⟨hjlo, hjhi⟩ := hjs j (List.mem_cons_self _ _)
    have hk1 : (if j = 0 then 0 else lookupD j2len (j - 1)) + 1 + blo ≤ j + 1 := by
      by_cases hj0 : j = 0
      · subst hj0; rw [if_pos rfl]; omega
      · rw [if_neg hj0]
        rcases lookupD_cases j2len (j - 1) with h0 | ⟨p, hp, hkey, hval⟩
        · rw [h0]; omega
        · have := hj p hp
          omega
    have hk2 : (if j = 0 then 0 else lookupD j2len (j - 1)) + 1 + alo ≤ i + 1 := by
      by_cases hj0 : j = 0
      · rw [if_pos hj0]; omega
      · rw [if_neg hj0]
        rcases lookupD_cases j2len (j - 1) with h0 | ⟨p, hp, hkey, hval⟩
        · rw [h0]; omega
        · have := hj p hp
          omega
    unfold innerLoop
    dsimp only
    refine ih _ _ (fun j' hj' => hjs j' (List.mem_cons_of_mem _ hj')) ?_ ?_
    · intro p hp
      rcases List.mem_cons.mp hp with rfl | hp
      · exact ⟨hjlo, hjhi, hk1, hk2⟩
      · exact hacc p hp
    · by_cases hbk : best.2.2 < (if j = 0 then 0 else lookupD j2len (j - 1)) + 1
      · rw [if_pos hbk]
        intro _
        dsimp only
        refine ⟨by omega, by omega, by omega, by omega⟩
      · rw [if_neg hbk]
        exact hbest

theorem outerLoop_inv (a b : Str) (alo blo bhi ahi : Nat) :
    ∀ (n i0 : Nat) (j2len : List (Nat × Nat)) (best : Nat × Nat × Nat),
      alo ≤ i0 → i0 + n ≤ ahi →
      J2Inv alo blo bhi i0 j2len →
      BestInv alo ahi blo bhi best →
      BestInv alo ahi blo bhi (outerLoop a b blo bhi (List.range' i0 n) j2len best) := by
  intro n
  induction n with
  | zero =>
    intro i0 j2len best _ _ _ hbest
    exact hbest
  | succ n ih =>
    intro i0 j2len best h1 h2 hj hbest
    rw [List.range'_succ]
    unfold outerLoop
    dsimp only
    have hjs : ∀ j ∈ ((b2j b (a.getD i0 ' ')).filter
        (fun j => blo ≤ j)).takeWhile (fun j => j < bhi), blo ≤ j ∧ j < bhi := by
      intro j hjmem
      have hhi : j < bhi := by simpa using List.mem_takeWhile_imp hjmem
      have hlo : blo ≤ j := by
        have hmem := (List.takeWhile_prefix (fun j => decide (j < bhi))).subset hjmem
        simpa using (List.mem_filter.mp hmem).2
      exact ⟨hlo, hhi⟩
    have hinner := innerLoop_inv alo ahi blo bhi i0 h1 (by omega) j2len hj _ [] best
      hjs (by intro p hp; simp at hp) hbest
    exact ih (i0 + 1) _ _ (by omega) (by omega) hinner.1 hinner.2

theorem findLongestMatch_bounds (a b : Str) (alo ahi blo bhi : Nat) :
    BestInv alo ahi blo bhi (findLongestMatch a b alo ahi blo bhi) := by
  unfold findLongestMatch
  by_cases h : alo ≤ ahi
  · exact outerLoop_inv a b alo blo bhi ahi (ahi - alo) alo [] _ le_rfl (by omega)
      (by intro p hp; simp at hp) (by intro h0; simp at h0)
  · have hz : ahi - alo = 0 := by omega
    rw [hz]
    intro h0
    simp [outerLoop] at h0

/-- Any two sufficient fuels agree: `matchSumGo` only ever recurses
into strictly smaller windows (by `findLongestMatch_bounds`), so any
fuel above the window measure computes the same sum — in particular
`matchSum`'s fuel `a.length + b.length + 1` never runs out. -/
theorem matchSumGo_fuel_irrel (a b : Str) :
    ∀ (f1 f2 alo ahi blo bhi : Nat),
      (ahi - alo) + (bhi - blo) < f1 → (ahi - alo) + (bhi - blo) < f2 →
      matchSumGo a b f1 alo ahi blo bhi = matchSumGo a b f2 alo ahi blo bhi := by
  intro f1
  induction f1 using Nat.strong_induction_on with
  | _ f1 ih =>
    intro f2 alo ahi blo bhi h1 h2
    obtain ⟨f1', rfl⟩ : ∃ g, f1 = g + 1 := ⟨f1 - 1, by omega⟩
    obtain ⟨f2', rfl⟩ : ∃ g, f2 = g + 1 := ⟨f2 - 1, by omega⟩
    unfold matchSumGo
    dsimp only
    by_cases hk : 0 < (findLongestMatch a b alo ahi blo bhi).2.2
    · rw [if_pos hk, if_pos hk]
      obtain ⟨hb1, hb2, hb3, hb4⟩ := findLongestMatch_bounds a b alo ahi blo bhi hk
      rw [ih f1' (by omega) f2' alo (findLongestMatch a b alo ahi blo bhi).1 blo
          (findLongestMatch a b alo ahi blo bhi).2.1 (by omega) (by omega),
        ih f1' (by omega) f2'
          ((findLongestMatch a b alo ahi blo bhi).1 + (findLongestMatch a b alo ahi blo bhi).2.2)
          ahi
          ((findLongestMatch a b alo ahi blo bhi).2.1 + (findLongestMatch a b alo ahi blo bhi).2.2)
          bhi (by omega) (by omega)]
    · rw [if_neg hk, if_neg hk]

end RS
